import Mathlib

/-!
Verification of the Vavoo IPTV playlist pipeline.

This file gives a shallow embedding of the core of
`Get_Vavoo_Channels_with_FTP.py`: channel-name normalization
(`clean_channel_name`), stream-URL resolution (`get_channel_url`),
playlist serialization (`convert_json_to_m3u8`), the FTP publish step
(`upload_to_ftp`), and the success check in `main`.

The Python regular-expression substitutions are embedded as explicit
left-to-right scanners over `List Char`, mirroring `re.sub` semantics for
the concrete patterns used by the script.  Whitespace is modelled as the
ASCII whitespace characters matched by `\s` (the catalog data is ASCII).
Fuel arguments make every scanner structurally recursive; the fuel is
always instantiated with `length + 1`, which is sufficient because each
step consumes at least one character.
-/

namespace VavooIptv

/-- ASCII whitespace, as matched by the regex class `\s` on ASCII text. -/
def isSpc (c : Char) : Bool :=
  c = ' ' || c = '\t' || c = '\n' || c = '\x0d' || c = '\x0b' || c = '\x0c'

/-- ASCII letter, as matched by the regex class `[A-Za-z]`. -/
def isAlphaChar (c : Char) : Bool :=
  decide (('A' ≤ c ∧ c ≤ 'Z') ∨ ('a' ≤ c ∧ c ≤ 'z'))

/-- ASCII upper-casing, as `str.upper()` acts on ASCII characters. -/
def upperA (c : Char) : Char :=
  if 'a' ≤ c ∧ c ≤ 'z' then Char.ofNat (c.toNat - 32) else c

/-- Upper-case a character list, modelling `name.upper()` on ASCII text. -/
def upperL (l : List Char) : List Char := l.map upperA

/-- Substring test, modelling the Python operator `pat in s`. -/
def containsSubL : List Char → List Char → Bool
  | [], pat => pat.isEmpty
  | c :: t, pat => pat.isPrefixOf (c :: t) || containsSubL t pat

/-- One pass of `re.sub(pattern, ' ', s)` for the token patterns of the
script: `m` reports whether the pattern matches at the current position
and, if so, returns the remainder after the match.  Each match is
replaced by a single space; on failure the scanner advances one
character, exactly as the `re` scanner does.  Fuel exhaustion returns
the rest unchanged and never occurs at fuel `length + 1`. -/
def scanSub (m : List Char → Option (List Char)) : Nat → List Char → List Char
  | 0, l => l
  | _ + 1, [] => []
  | fuel + 1, c :: cs =>
    match m (c :: cs) with
    | some rest => ' ' :: scanSub m fuel rest
    | none => c :: scanSub m fuel cs

/-- Matcher for patterns of the shape `\s*XY\s*`: optional whitespace,
two tested characters, optional trailing whitespace.  Greedy `\s*`
followed by a non-whitespace literal never backtracks usefully, so
taking the maximal whitespace run is faithful. -/
def matchTwo (p1 p2 : Char → Bool) (l : List Char) : Option (List Char) :=
  match l.dropWhile isSpc with
  | c1 :: c2 :: rest =>
    if p1 c1 && p2 c2 then some (rest.dropWhile isSpc) else none
  | _ => none

def isH (c : Char) : Bool := c = 'H' || c = 'h'
def isD (c : Char) : Bool := c = 'D' || c = 'd'
def isF (c : Char) : Bool := c = 'F' || c = 'f'
def is4 (c : Char) : Bool := c = '4'
def isK (c : Char) : Bool := c = 'K' || c = 'k'
def isEHD (c : Char) : Bool := c = 'E' || c = 'H' || c = 'D'

/-- Matcher for `\s*HD\s*` with `re.IGNORECASE`. -/
def matchHD : List Char → Option (List Char) := matchTwo isH isD

/-- Matcher for `\s*FHD\s*` with `re.IGNORECASE`. -/
def matchFHD (l : List Char) : Option (List Char) :=
  match l.dropWhile isSpc with
  | c1 :: c2 :: c3 :: rest =>
    if isF c1 && isH c2 && isD c3 then some (rest.dropWhile isSpc) else none
  | _ => none

/-- Matcher for `\s*4K\s*` with `re.IGNORECASE`. -/
def match4K : List Char → Option (List Char) := matchTwo is4 isK

/-- Matcher for `\s*\|[EHD]\s*` (case-sensitive, as in the source). -/
def matchMarker : List Char → Option (List Char) :=
  matchTwo (fun c => c = '|') isEHD

/-- The substitution `re.sub(r'\s*HD\s*', ' ', name, flags=re.IGNORECASE)`. -/
def subHDL (l : List Char) : List Char := scanSub matchHD (l.length + 1) l

/-- The substitution `re.sub(r'\s*FHD\s*', ' ', name, flags=re.IGNORECASE)`. -/
def subFHDL (l : List Char) : List Char := scanSub matchFHD (l.length + 1) l

/-- The substitution `re.sub(r'\s*4K\s*', ' ', name, flags=re.IGNORECASE)`. -/
def sub4KL (l : List Char) : List Char := scanSub match4K (l.length + 1) l

/-- The substitution `re.sub(r'\s*\|[EHD]\s*', ' ', name)`. -/
def subMarkersL (l : List Char) : List Char := scanSub matchMarker (l.length + 1) l

/-- One pass of `re.sub(r'\s+', ' ', s)`: every maximal whitespace run
becomes a single space. -/
def collapseWs : Nat → List Char → List Char
  | 0, l => l
  | _ + 1, [] => []
  | fuel + 1, c :: cs =>
    if isSpc c then ' ' :: collapseWs fuel (cs.dropWhile isSpc)
    else c :: collapseWs fuel cs

/-- The substitution `re.sub(r'\s+', ' ', s)` with sufficient fuel. -/
def collapseL (l : List Char) : List Char := collapseWs (l.length + 1) l

/-- Python `str.strip()` on ASCII text: drop whitespace at both ends. -/
def stripL (l : List Char) : List Char :=
  ((l.dropWhile isSpc).reverse.dropWhile isSpc).reverse

/-- The starred tail of the anchored group
`^([A-Za-z]+(?:\s+[A-Za-z]+)*)`: greedily append further
whitespace-then-letters blocks for as long as both parts are nonempty,
keeping the matched whitespace verbatim, as `re.match` does. -/
def leadMore : Nat → List Char → List Char
  | 0, _ => []
  | fuel + 1, l =>
    let ws := l.takeWhile isSpc
    let rest := l.dropWhile isSpc
    let letters := rest.takeWhile isAlphaChar
    if ws.isEmpty || letters.isEmpty then []
    else ws ++ letters ++ leadMore fuel (rest.dropWhile isAlphaChar)

/-- `re.match(r'^([A-Za-z]+(?:\s+[A-Za-z]+)*)', s)`: `none` when the
match fails (first character not a letter), otherwise the matched
group. -/
def leadGroupL (l : List Char) : Option (List Char) :=
  if (l.takeWhile isAlphaChar).isEmpty then none
  else some (l.takeWhile isAlphaChar ++
    leadMore (l.length + 1) (l.dropWhile isAlphaChar))

/-- The exception list of `clean_channel_name`, verbatim from the source. -/
def exceptionsList : List String :=
  ["BLUETV", "SKY BOX", "SKY SELECT", "123 TV", "1.2.3. TV",
   "STERN FILME", "GERMANY KONIG FILME", "GERMANY BESONDERE"]

/-- The test `any(exc in name_upper for exc in exceptions)`. -/
def isExceptionL (l : List Char) : Bool :=
  exceptionsList.any (fun exc => containsSubL (upperL l) exc.data)

/-- The four token substitutions of the standard path, in source order:
`HD`, `FHD`, `4K`, then the `|E`/`|H`/`|D` markers. -/
def subTokens (l : List Char) : List Char :=
  subMarkersL (sub4KL (subFHDL (subHDL l)))

/-- The main-name extraction: keep the matched leading group when
`re.match` succeeds, the whole string otherwise. -/
def mainNamePick (l : List Char) : List Char :=
  match leadGroupL l with
  | some g => g
  | none => l

/-- The full standard-path cleanup before the final emptiness check. -/
def standardResult (l : List Char) : List Char :=
  stripL (collapseL (mainNamePick (subTokens l)))

/-- Embedding of `clean_channel_name`.  The Python function also maps
non-string inputs to the placeholder; in this embedding every caller
passes a string, so only the empty-string check of `not name` remains. -/
def cleanChannelName (name : String) : String :=
  if name = "" then "Unbekannter Kanal"
  else if isExceptionL name.data then
    String.mk (stripL (collapseL (subMarkersL name.data)))
  else if standardResult name.data = [] then "Unbekannter Kanal"
  else String.mk (standardResult name.data)

/-- The dedicated BILD TV stream address. -/
def bildUrl : String := "https://bild.personalstream.tv/v1/master.m3u8"

/-- The placeholder stream address for channels without an id. -/
def placeholderUrl : String := "https://example.com/placeholder.m3u8"

/-- Embedding of `get_channel_url`.  A falsy (empty) name is replaced by
the empty string before the upper-cased substring test, which is
equivalent to testing the empty string directly. -/
def getChannelUrl (channelId channelName : String) : String :=
  if containsSubL (upperL channelName.data) ("BILD TV".data) then bildUrl
  else if channelId ≠ "" then
    "https://huhu.to/play/" ++ channelId ++ "/index.m3u8"
  else placeholderUrl

/-- A catalog record as `convert_json_to_m3u8` reads it: each field is
`none` when the key is absent from the JSON object (so `dict.get`
returns its default) and `some s` when it is present with string value
`s`.  A JSON `null` id behaves like an absent id (both are falsy with
default `''`); `null` names and countries do not occur in the claims and
are not modelled. -/
structure RawRecord where
  id : Option String
  name : Option String
  country : Option String
deriving DecidableEq

/-- A raw catalog entry: either a JSON object (`rec`) or a non-mapping
value (`bad`), on which the attribute lookup `channel.get` raises before
`original_name` is assigned. -/
inductive RawValue
  | record (r : RawRecord)
  | bad
deriving DecidableEq

/-- The value of `channel.get('country', 'Unbekannt')`. -/
def countryOf (r : RawRecord) : String := r.country.getD "Unbekannt"

/-- The value of `channel.get('id', '')`. -/
def idOf (r : RawRecord) : String := r.id.getD ""

/-- The value of `channel.get('name', 'Unbekannter Kanal')`. -/
def origNameOf (r : RawRecord) : String := r.name.getD "Unbekannter Kanal"

/-- The fixed header line of the playlist file. -/
def headerLine : String :=
  "#EXTM3U8 x-url-tvg=https://vav00.de/sources/epg/epg_de.xml,https://epgshare01.online/epgshare01/epg_ripper_DE1.xml.gz"

/-- The fixed user-agent player-option line. -/
def uaLine : String := "#EXTVLCOPT:http-user-agent=VAVOO/2.6"

/-- The fixed referrer player-option line. -/
def refLine : String := "#EXTVLCOPT:http-referrer=https://vavoo.tv/"

/-- The fixed logo URL of the EXTINF line. -/
def logoUrl : String :=
  "https://raw.githubusercontent.com/SuperNova-Repo/Vavuu-IPTV/refs/heads/main/VAVOO_%26_OTT-Navigator-icon.jpg"

/-- The EXTINF metadata line, as the f-string in the source builds it. -/
def extinfLine (country cleanName : String) : String :=
  "#EXTINF:-1 group-title=\"" ++ country ++ "\" tvg-logo=\"" ++ logoUrl ++
    "\" tvg-name=\"" ++ cleanName ++ "\", " ++ cleanName

/-- The four newline-terminated lines written for one channel record. -/
def entryLines (r : RawRecord) : List String :=
  [uaLine, refLine,
   extinfLine (countryOf r) (cleanChannelName (origNameOf r)),
   getChannelUrl (idOf r) (origNameOf r)]

/-- The per-entry loop of `convert_json_to_m3u8`.  The first component
is the success flag, the second the entry lines written before the
function returned, the third the `processed_channels` count.  The
`Option String` argument tracks the last value assigned to
`original_name`: when a non-mapping record raises before that variable
is assigned, the `except` handler itself raises `NameError` on the
unbound `original_name`, the outer handler returns `False`, and the file
keeps only what was already written; when it is assigned, the handler
prints and the loop continues with the record skipped. -/
def convertGo : Option String → List RawValue → Bool × List String × Nat
  | _, [] => (true, [], 0)
  | last?, .bad :: rest =>
    match last? with
    | none => (false, [], 0)
    | some n => convertGo (some n) rest
  | _, .record r :: rest =>
    let out := convertGo (some (origNameOf r)) rest
    (out.1, entryLines r ++ out.2.1, out.2.2 + 1)

/-- Embedding of `convert_json_to_m3u8`: success flag, the
newline-terminated lines of the written file, and the processed count. -/
def convertJsonToM3u8 (channels : List RawValue) : Bool × List String × Nat :=
  let out := convertGo none channels
  (out.1, headerLine :: out.2.1, out.2.2)

/-- Outcome of one operation of the FTP exchange: success, an
`ftplib.error_perm`, a `socket.gaierror`, or any other member of
`ftplib.all_errors`. -/
inductive StepOutcome
  | ok
  | permErr
  | gaiErr
  | otherErr
deriving DecidableEq, Fintype

/-- The outcomes the remote side produces for each operation attempted
by `upload_to_ftp`, in program order. -/
structure FtpEnv where
  connectFirst : StepOutcome
  connectClean : StepOutcome
  loginStep : StepOutcome
  cwdStep : StepOutcome
  storStep : StepOutcome
  quitStep : StepOutcome
deriving DecidableEq

/-- An exception escaping the FTP exchange into the handlers of
`upload_to_ftp`. -/
inductive PyExc
  | caught
deriving DecidableEq

/-- The condition `remote_path and remote_path != "/"` guarding the
directory change. -/
def navNeeded (remotePath : String) : Bool :=
  decide (remotePath ≠ "" ∧ remotePath ≠ "/")

/-- The body of `upload_to_ftp` up to its `try` handlers, over the
guard value of the directory-change condition.  A `socket.gaierror` on
the first connect is retried on the scheme-stripped host; an
`ftplib.error_perm` on the directory change is caught locally and the
upload continues; every other error escapes to the handlers. -/
def uploadBodyCore (env : FtpEnv) (nav : Bool) : Except PyExc Bool :=
  let connected : Except PyExc Unit :=
    match env.connectFirst with
    | .ok => .ok ()
    | .gaiErr =>
      match env.connectClean with
      | .ok => .ok ()
      | _ => .error .caught
    | _ => .error .caught
  match connected with
  | .error e => .error e
  | .ok _ =>
    match env.loginStep with
    | .ok =>
      let navigated : Except PyExc Unit :=
        if nav then
          match env.cwdStep with
          | .ok => .ok ()
          | .permErr => .ok ()
          | _ => .error .caught
        else .ok ()
      match navigated with
      | .error e => .error e
      | .ok _ =>
        match env.storStep with
        | .ok =>
          match env.quitStep with
          | .ok => .ok true
          | _ => .error .caught
        | _ => .error .caught
    | _ => .error .caught

/-- The `except ftplib.all_errors` and `except Exception` handlers of
`upload_to_ftp`: every escaping exception becomes the return value
`False`. -/
def uploadCoreBool (env : FtpEnv) (nav : Bool) : Bool :=
  match uploadBodyCore env nav with
  | .ok b => b
  | .error _ => false

/-- Embedding of `upload_to_ftp`: total with a boolean result, since
the handlers absorb every exception of the exchange. -/
def uploadToFtp (env : FtpEnv) (remotePath : String) : Bool :=
  uploadCoreBool env (navNeeded remotePath)

/-- Boolean success condition of the upload, for the characterization
of `uploadToFtp`. -/
def ftpSpecBool (env : FtpEnv) (nav : Bool) : Bool :=
  (env.connectFirst = StepOutcome.ok ||
    (env.connectFirst = StepOutcome.gaiErr && env.connectClean = StepOutcome.ok)) &&
  env.loginStep = StepOutcome.ok &&
  (!nav || env.cwdStep = StepOutcome.ok || env.cwdStep = StepOutcome.permErr) &&
  env.storStep = StepOutcome.ok && env.quitStep = StepOutcome.ok

/-- A value parsed from the catalog response body: a JSON array of raw
entries, or any non-array value with its truthiness. -/
inductive JsonVal
  | arr (items : List RawValue)
  | nonArr (truthy : Bool)
deriving DecidableEq

/-- Result handed to `main` by `download_json_from_url`: `failed` models
the `None` returned on network or decode errors. -/
inductive FetchResult
  | failed
  | json (v : JsonVal)
deriving DecidableEq

/-- The success check `channels and isinstance(channels, list)` in
`main`: the value must be truthy (a nonempty list) and a list. -/
def channelsLoadedOk : FetchResult → Bool
  | .json (.arr (_ :: _)) => true
  | _ => false

/-- Observable outcome of the playlist-and-publish part of `main`:
the lines written to the playlist file (if the conversion ran), whether
the FTP upload was attempted, and whether the saved-successfully
message path was taken. -/
structure MainOutcome where
  written : Option (List String)
  publishAttempted : Bool
  successMsg : Bool
deriving DecidableEq

/-- Embedding of the playlist-creation section of `main` (steps 4 and 5):
conversion runs only when the success check passes; the upload is
attempted only when conversion succeeded and upload was configured. -/
def mainPipeline : FetchResult → Bool → MainOutcome
  | .json (.arr (x :: xs)), uploadEnabled =>
    let out := convertJsonToM3u8 (x :: xs)
    if out.1 then ⟨some out.2.1, uploadEnabled, true⟩
    else ⟨some out.2.1, false, false⟩
  | _, _ => ⟨none, false, false⟩

/-! ### Anatomy of the token matchers -/

/-- A successful `matchTwo` consumes a nonempty region made of
whitespace and the two tested characters, leaving a suffix. -/
lemma matchTwo_anatomy {p1 p2 : Char → Bool} {l rest : List Char}
    (h : matchTwo p1 p2 l = some rest) :
    ∃ pre, l = pre ++ rest ∧ pre ≠ [] ∧
      ∀ c ∈ pre, isSpc c = true ∨ p1 c = true ∨ p2 c = true := by
  unfold matchTwo at h
  rcases hd : l.dropWhile isSpc with _ | ⟨c1, tl⟩ <;> rw [hd] at h
  · simp at h
  · rcases tl with _ | ⟨c2, r2⟩ <;> dsimp only at h
    · simp at h
    · split at h
      case isFalse => simp at h
      case isTrue hp =>
        have hrest : rest = r2.dropWhile isSpc := (Option.some.inj h).symm
        have hp' := hp
        simp only [Bool.and_eq_true] at hp'
        obtain ⟨hp1, hp2⟩ := hp'
        refine ⟨l.takeWhile isSpc ++ c1 :: c2 :: r2.takeWhile isSpc, ?_, by simp, ?_⟩
        · have hl : l = l.takeWhile isSpc ++ (c1 :: c2 :: r2) := by
            rw [← hd]; exact (List.takeWhile_append_dropWhile (p := isSpc) (l := l)).symm
          have hr2 : r2 = r2.takeWhile isSpc ++ r2.dropWhile isSpc :=
            (List.takeWhile_append_dropWhile (p := isSpc) (l := r2)).symm
          have hsplit :
              (l.takeWhile isSpc ++ c1 :: c2 :: r2.takeWhile isSpc) ++ r2.dropWhile isSpc =
                l.takeWhile isSpc ++ (c1 :: c2 :: (r2.takeWhile isSpc ++ r2.dropWhile isSpc)) := by
            simp
          rw [hrest, hsplit, ← hr2]
          exact hl
        · intro c hc
          rcases List.mem_append.mp hc with hc | hc
          · exact Or.inl (List.mem_takeWhile_imp hc)
          · rcases List.mem_cons.mp hc with rfl | hc
            · exact Or.inr (Or.inl hp1)
            · rcases List.mem_cons.mp hc with rfl | hc
              · exact Or.inr (Or.inr hp2)
              · exact Or.inl (List.mem_takeWhile_imp hc)

/-- A successful match leaves a proper suffix. -/
lemma matchTwo_suffix {p1 p2 : Char → Bool} {l rest : List Char}
    (h : matchTwo p1 p2 l = some rest) : ∃ pre, l = pre ++ rest :=
  (matchTwo_anatomy h).imp fun _ hp => hp.1

/-! ### Character accounting for the substitution scanner -/

/-- Every character of a substitution result is a character of the
input or the replacement space. -/
lemma scanSub_chars {m : List Char → Option (List Char)}
    (hm : ∀ l rest, m l = some rest → ∃ pre, l = pre ++ rest) :
    ∀ (fuel : Nat) (l : List Char) (c : Char),
      c ∈ scanSub m fuel l → c ∈ l ∨ c = ' ' := by
  intro fuel
  induction fuel with
  | zero => intro l c hc; exact Or.inl hc
  | succ fuel ih =>
    intro l c hc
    rcases l with _ | ⟨a, cs⟩
    · simp [scanSub] at hc
    · rcases hmatch : m (a :: cs) with _ | rest <;>
        simp only [scanSub, hmatch] at hc
      · rcases List.mem_cons.mp hc with rfl | hc
        · exact Or.inl (List.mem_cons_self _ _)
        · rcases ih cs c hc with hin | hsp
          · exact Or.inl (List.mem_cons_of_mem a hin)
          · exact Or.inr hsp
      · rcases List.mem_cons.mp hc with rfl | hc
        · exact Or.inr rfl
        · rcases ih rest c hc with hin | hsp
          · obtain ⟨pre, hpre⟩ := hm _ _ hmatch
            exact Or.inl (hpre ▸ List.mem_append_right pre hin)
          · exact Or.inr hsp

/-- A character on which the matched regions never stand survives the
substitution. -/
lemma scanSub_preserves {m : List Char → Option (List Char)}
    {bad : Char → Bool}
    (hm : ∀ l rest, m l = some rest →
      ∃ pre, l = pre ++ rest ∧ ∀ c ∈ pre, bad c = true) :
    ∀ (fuel : Nat) (l : List Char) (c : Char),
      c ∈ l → bad c = false → c ∈ scanSub m fuel l := by
  intro fuel
  induction fuel with
  | zero => intro l c hc _; exact hc
  | succ fuel ih =>
    intro l c hc hgood
    rcases l with _ | ⟨a, cs⟩
    · simp at hc
    · rcases hmatch : m (a :: cs) with _ | rest <;> simp only [scanSub, hmatch]
      · rcases List.mem_cons.mp hc with rfl | hc
        · exact List.mem_cons_self _ _
        · exact List.mem_cons_of_mem a (ih cs c hc hgood)
      · obtain ⟨pre, hpre, hbad⟩ := hm _ _ hmatch
        have hcrest : c ∈ rest := by
          rcases List.mem_append.mp (hpre ▸ hc) with hin | hin
          · exact absurd (hbad c hin) (by simp [hgood])
          · exact hin
        exact List.mem_cons_of_mem ' ' (ih rest c hcrest hgood)

/-- The head of a substitution result is the head of the input or a
space. -/
lemma scanSub_head {m : List Char → Option (List Char)}
    (fuel : Nat) (l : List Char) :
    (scanSub m fuel l).head? = l.head? ∨ (scanSub m fuel l).head? = some ' ' := by
  rcases fuel with _ | fuel
  · exact Or.inl rfl
  · rcases l with _ | ⟨a, cs⟩
    · exact Or.inl rfl
    · rcases hmatch : m (a :: cs) with _ | rest <;> simp only [scanSub, hmatch]
      · exact Or.inl rfl
      · exact Or.inr rfl

/-! ### Character accounting for whitespace collapsing and stripping -/

/-- Membership survives `dropWhile` for elements the predicate
rejects. -/
lemma mem_dropWhile_of_mem {α : Type} {p : α → Bool} :
    ∀ {l : List α} {c : α}, c ∈ l → p c = false → c ∈ l.dropWhile p := by
  intro l
  induction l with
  | nil => intro c hc _; simp at hc
  | cons a t ih =>
    intro c hc hgood
    rcases List.mem_cons.mp hc with rfl | hcc
    · rw [List.dropWhile_cons, hgood]
      simp
    · rcases hpa : p a with _ | _
      · rw [List.dropWhile_cons, hpa]
        simp only [Bool.false_eq_true, if_false]
        exact List.mem_cons_of_mem a hcc
      · rw [List.dropWhile_cons, hpa]
        simp only [if_true]
        exact ih hcc hgood

/-- Every character of a collapsed string is a character of the input
or the replacement space. -/
lemma collapseWs_chars :
    ∀ (fuel : Nat) (l : List Char) (c : Char),
      c ∈ collapseWs fuel l → c ∈ l ∨ c = ' ' := by
  intro fuel
  induction fuel with
  | zero => intro l c hc; exact Or.inl hc
  | succ fuel ih =>
    intro l c hc
    rcases l with _ | ⟨a, cs⟩
    · simp [collapseWs] at hc
    · rcases hsp : isSpc a with _ | _ <;>
        simp only [collapseWs, hsp, Bool.false_eq_true, if_false, if_true] at hc
      · rcases List.mem_cons.mp hc with rfl | hc
        · exact Or.inl (List.mem_cons_self _ _)
        · rcases ih cs c hc with hin | h
          · exact Or.inl (List.mem_cons_of_mem a hin)
          · exact Or.inr h
      · rcases List.mem_cons.mp hc with rfl | hc
        · exact Or.inr rfl
        · rcases ih _ c hc with hin | h
          · exact Or.inl (List.mem_cons_of_mem a (List.dropWhile_subset isSpc hin))
          · exact Or.inr h

/-- Non-whitespace characters survive whitespace collapsing. -/
lemma collapseWs_preserves :
    ∀ (fuel : Nat) (l : List Char) (c : Char),
      c ∈ l → isSpc c = false → c ∈ collapseWs fuel l := by
  intro fuel
  induction fuel with
  | zero => intro l c hc _; exact hc
  | succ fuel ih =>
    intro l c hc hgood
    rcases l with _ | ⟨a, cs⟩
    · simp at hc
    · rcases hsp : isSpc a with _ | _ <;>
        simp only [collapseWs, hsp, Bool.false_eq_true, if_false, if_true]
      · rcases List.mem_cons.mp hc with rfl | hc
        · exact List.mem_cons_self _ _
        · exact List.mem_cons_of_mem a (ih cs c hc hgood)
      · rcases List.mem_cons.mp hc with rfl | hc
        · exact absurd hsp (by simp [hgood])
        · exact List.mem_cons_of_mem ' '
            (ih _ c (mem_dropWhile_of_mem hc hgood) hgood)

/-- Stripping only removes characters. -/
lemma stripL_subset {l : List Char} {c : Char} (hc : c ∈ stripL l) : c ∈ l := by
  unfold stripL at hc
  have h1 := List.mem_reverse.mp hc
  have h2 := List.dropWhile_subset isSpc h1
  have h3 := List.mem_reverse.mp h2
  exact List.dropWhile_subset isSpc h3

/-- A list holding a non-whitespace character does not strip to the
empty list. -/
lemma stripL_ne_nil_of_mem {l : List Char} {c : Char}
    (hc : c ∈ l) (hgood : isSpc c = false) : stripL l ≠ [] := by
  have h1 : c ∈ l.dropWhile isSpc := mem_dropWhile_of_mem hc hgood
  have h2 : c ∈ (l.dropWhile isSpc).reverse := List.mem_reverse.mpr h1
  have h3 : c ∈ (l.dropWhile isSpc).reverse.dropWhile isSpc :=
    mem_dropWhile_of_mem h2 hgood
  have h4 : c ∈ stripL l := List.mem_reverse.mpr h3
  exact List.ne_nil_of_mem h4

/-! ### Substring membership -/

/-- A substring occurrence puts every pattern character in the text. -/
lemma containsSubL_mem :
    ∀ {l pat : List Char}, containsSubL l pat = true → ∀ c ∈ pat, c ∈ l := by
  intro l
  induction l with
  | nil =>
    intro pat h c hc
    rw [containsSubL] at h
    rw [List.isEmpty_iff.mp h] at hc
    simp at hc
  | cons a t ih =>
    intro pat h c hc
    rw [containsSubL] at h
    rcases Bool.or_eq_true_iff.mp h with h | h
    · exact (List.isPrefixOf_iff_prefix.mp h).subset hc
    · exact List.mem_cons_of_mem a (ih h c hc)

/-! ### A safe character survives the exception path -/

/-- Characters whose upper-case image is one of the anchor letters of
the exception names are neither whitespace, nor the bar, nor one of the
marker letters, so no marker match can consume them. -/
lemma safe_of_upperA {d u : Char} (h : upperA d = u)
    (hu : u = 'B' ∨ u = 'S' ∨ u = 'T' ∨ u = 'G') :
    isSpc d = false ∧ (d = '|' : Bool) = false ∧ isEHD d = false := by
  refine ⟨?_, ?_, ?_⟩
  · cases hsp : isSpc d
    · rfl
    · exfalso
      have hd : d = ' ' ∨ d = '\t' ∨ d = '\n' ∨ d = '\x0d' ∨ d = '\x0b' ∨ d = '\x0c' := by
        simpa [isSpc, or_assoc] using hsp
      rcases hd with rfl | rfl | rfl | rfl | rfl | rfl <;>
        rcases hu with rfl | rfl | rfl | rfl <;> exact absurd h (by decide)
  · cases hbar : (d = '|' : Bool)
    · rfl
    · exfalso
      have hd : d = '|' := by simpa using hbar
      subst hd
      rcases hu with rfl | rfl | rfl | rfl <;> exact absurd h (by decide)
  · cases he : isEHD d
    · rfl
    · exfalso
      have hd : d = 'E' ∨ d = 'H' ∨ d = 'D' := by simpa [isEHD, or_assoc] using he
      rcases hd with rfl | rfl | rfl <;>
        rcases hu with rfl | rfl | rfl | rfl <;> exact absurd h (by decide)

/-- Every name matching the exception list holds a character that the
marker substitution, the whitespace collapse and the strip all keep. -/
lemma exists_safe_char_of_exception {l : List Char}
    (h : isExceptionL l = true) :
    ∃ c ∈ l, isSpc c = false ∧ (c = '|' : Bool) = false ∧ isEHD c = false := by
  unfold isExceptionL at h
  obtain ⟨exc, hexc, hsub⟩ := List.any_eq_true.mp h
  have pick : ∃ u, (u = 'B' ∨ u = 'S' ∨ u = 'T' ∨ u = 'G') ∧ u ∈ exc.data := by
    fin_cases hexc
    · exact ⟨'B', by simp, by decide⟩
    · exact ⟨'B', by simp, by decide⟩
    · exact ⟨'S', by simp, by decide⟩
    · exact ⟨'T', by simp, by decide⟩
    · exact ⟨'T', by simp, by decide⟩
    · exact ⟨'S', by simp, by decide⟩
    · exact ⟨'G', by simp, by decide⟩
    · exact ⟨'G', by simp, by decide⟩
  obtain ⟨u, hu, humem⟩ := pick
  have hin : u ∈ upperL l := containsSubL_mem hsub u humem
  obtain ⟨d, hd, hud⟩ := List.mem_map.mp hin
  exact ⟨d, hd, safe_of_upperA hud hu⟩

/-- The marker matcher only consumes whitespace, bars and the letters
`E`, `H`, `D`. -/
lemma matchMarker_anatomy {l rest : List Char}
    (h : matchMarker l = some rest) :
    ∃ pre, l = pre ++ rest ∧
      ∀ c ∈ pre, (isSpc c || c = '|' || isEHD c) = true := by
  obtain ⟨pre, hpre, _, hchars⟩ := matchTwo_anatomy h
  refine ⟨pre, hpre, fun c hc => ?_⟩
  rcases hchars c hc with h1 | h1 | h1 <;> simp [h1]

/-- Normalization never returns the empty string. -/
lemma clean_ne_empty (s : String) : cleanChannelName s ≠ "" := by
  by_cases h0 : s = ""
  · subst h0; decide
  · by_cases hexc : isExceptionL s.data = true
    · rw [cleanChannelName, if_neg h0, if_pos hexc]
      intro hcontra
      have hdata : stripL (collapseL (subMarkersL s.data)) = [] := by
        have := congrArg String.data hcontra
        simpa using this
      obtain ⟨c, hc, hsp, hbar, hehd⟩ := exists_safe_char_of_exception hexc
      have hgood : (isSpc c || c = '|' || isEHD c) = false := by
        simp [hsp, hbar, hehd]
      have h1 : c ∈ subMarkersL s.data :=
        scanSub_preserves (fun _ _ hm => matchMarker_anatomy hm) _ _ _ hc hgood
      have h2 : c ∈ collapseL (subMarkersL s.data) :=
        collapseWs_preserves _ _ _ h1 hsp
      exact stripL_ne_nil_of_mem h2 hsp hdata
    · rw [cleanChannelName, if_neg h0, if_neg hexc]
      by_cases hr : standardResult s.data = []
      · rw [if_pos hr]; decide
      · rw [if_neg hr]
        intro hcontra
        have := congrArg String.data hcontra
        simp at this
        exact hr this

/-! ### Adjacent-pair bookkeeping for the token substitutions -/

/-- Whether the list holds two adjacent characters satisfying `p` and
`q`; `hasPair isH isD l = true` states a case-insensitive occurrence of
the letters `HD` in `l`. -/
def hasPair (p q : Char → Bool) : List Char → Bool
  | c1 :: c2 :: rest => (p c1 && q c2) || hasPair p q (c2 :: rest)
  | _ => false

/-- Build pair-absence for a cons cell from its pieces. -/
lemma hasPair_cons_of {p q : Char → Bool} {a : Char} {t : List Char}
    (h1 : ∀ b, t.head? = some b → (p a && q b) = false)
    (h2 : hasPair p q t = false) :
    hasPair p q (a :: t) = false := by
  rcases t with _ | ⟨b, t'⟩
  · rfl
  · have hab := h1 b rfl
    simp only [hasPair, hab, Bool.false_or]
    exact h2

/-- When the tested characters cannot be whitespace, an adjacent pair at
the scanner position forces a `matchTwo` success. -/
lemma matchTwo_some_of_adj {p1 p2 : Char → Bool} {c b : Char} {cs : List Char}
    (hns : isSpc c = false) (h1 : p1 c = true) (h2 : p2 b = true)
    (hcs : cs.head? = some b) :
    matchTwo p1 p2 (c :: cs) ≠ none := by
  rcases cs with _ | ⟨b', cs'⟩
  · simp at hcs
  · have hb : b' = b := by simpa using hcs
    subst hb
    unfold matchTwo
    rw [List.dropWhile_cons]
    simp only [hns, Bool.false_eq_true, if_false]
    simp [h1, h2]

/-- A successful `matchTwo` consumes at least one character. -/
lemma matchTwo_shrink {p1 p2 : Char → Bool} {l rest : List Char}
    (h : matchTwo p1 p2 l = some rest) : rest.length < l.length := by
  obtain ⟨pre, hpre, hne, _⟩ := matchTwo_anatomy h
  subst hpre
  rw [List.length_append]
  have : 0 < pre.length := List.length_pos.mpr hne
  omega

/-- `isH` characters are never whitespace. -/
lemma isH_not_spc {c : Char} (h : isH c = true) : isSpc c = false := by
  have hc : c = 'H' ∨ c = 'h' := by simpa [isH] using h
  rcases hc with rfl | rfl <;> decide

/-- After a `matchTwo` substitution pass no `(p1, p2)` pair remains,
whenever `p1` characters are never whitespace and `p2` rejects the
replacement space, for any fuel at least the length of the input. -/
lemma scanSub_matchTwo_no_pair {p1 p2 : Char → Bool}
    (hnospc : ∀ c, p1 c = true → isSpc c = false) (hq : p2 ' ' = false) :
    ∀ (fuel : Nat) (l : List Char), l.length ≤ fuel →
      hasPair p1 p2 (scanSub (matchTwo p1 p2) fuel l) = false := by
  have hp : p1 ' ' = false := by
    cases hpp : p1 ' '
    · rfl
    · exact absurd (hnospc ' ' hpp) (by decide)
  intro fuel
  induction fuel with
  | zero =>
    intro l hl
    have : l = [] := List.length_eq_zero.mp (Nat.le_zero.mp hl)
    subst this
    rfl
  | succ fuel ih =>
    intro l hl
    rcases l with _ | ⟨a, cs⟩
    · rfl
    · have hlen : cs.length ≤ fuel := by
        simp only [List.length_cons] at hl
        omega
      rcases hmatch : matchTwo p1 p2 (a :: cs) with _ | rest <;>
        simp only [scanSub, hmatch]
      · apply hasPair_cons_of
        · intro b hb
          cases hand : p1 a && p2 b
          · rfl
          · exfalso
            obtain ⟨ha, hbq⟩ := Bool.and_eq_true_iff.mp hand
            rcases scanSub_head fuel cs (m := matchTwo p1 p2) with hh | hh
            · have hcs : cs.head? = some b := hh.symm.trans hb
              exact matchTwo_some_of_adj (hnospc a ha) ha hbq hcs hmatch
            · have hbsp : b = ' ' := by
                have := hh.symm.trans hb
                simpa using this.symm
              subst hbsp
              exact absurd hbq (by simp [hq])
        · exact ih cs hlen
      · apply hasPair_cons_of
        · intro b _
          simp [hp]
        · have hlt : rest.length < (a :: cs).length := matchTwo_shrink hmatch
          have : rest.length ≤ fuel := by
            simp only [List.length_cons] at hlt
            omega
          exact ih rest this

/-- After the `HD` substitution pass no (case-insensitive) `HD` letter
pair remains. -/
lemma scanSub_matchHD_no_pair :
    ∀ (fuel : Nat) (l : List Char), l.length ≤ fuel →
      hasPair isH isD (scanSub matchHD fuel l) = false :=
  scanSub_matchTwo_no_pair (fun _ h => isH_not_spc h) (by decide)

/-- `is4` characters are never whitespace. -/
lemma is4_not_spc {c : Char} (h : is4 c = true) : isSpc c = false := by
  have hc : c = '4' := by simpa [is4] using h
  subst hc
  decide

/-- After the `4K` substitution pass no (case-insensitive) `4K` letter
pair remains. -/
lemma scanSub_match4K_no_pair :
    ∀ (fuel : Nat) (l : List Char), l.length ≤ fuel →
      hasPair is4 isK (scanSub match4K fuel l) = false :=
  scanSub_matchTwo_no_pair (fun _ h => is4_not_spc h) (by decide)

/-- Bar characters are never whitespace. -/
lemma bar_not_spc {c : Char} (h : (c = '|' : Bool) = true) : isSpc c = false := by
  have hc : c = '|' := by simpa using h
  subst hc
  decide

/-- After the marker substitution pass no `|`-then-`E`/`H`/`D` pair
remains. -/
lemma scanSub_matchMarker_no_pair :
    ∀ (fuel : Nat) (l : List Char), l.length ≤ fuel →
      hasPair (fun c => c = '|') isEHD
        (scanSub (matchTwo (fun c => c = '|') isEHD) fuel l) = false :=
  scanSub_matchTwo_no_pair (fun _ h => bar_not_spc h) (by decide)

/-! ### Pair monotonicity along prefixes, suffixes and infixes -/

/-- Pair absence restricts to the tail. -/
lemma hasPair_tail {p q : Char → Bool} {a : Char} {t : List Char}
    (h : hasPair p q (a :: t) = false) : hasPair p q t = false := by
  rcases t with _ | ⟨b, t'⟩
  · rfl
  · simp only [hasPair, Bool.or_eq_false_iff] at h
    exact h.2

/-- A pair in the tail is a pair in the whole list. -/
lemma hasPair_cons_tail {p q : Char → Bool} {x : Char} {t : List Char}
    (h : hasPair p q t = true) : hasPair p q (x :: t) = true := by
  rcases t with _ | ⟨b, t'⟩
  · simp [hasPair] at h
  · simp only [hasPair] at h ⊢
    simp [h]

/-- A pair survives prepending. -/
lemma hasPair_append_right {p q : Char → Bool} (a : List Char) {s : List Char}
    (h : hasPair p q s = true) : hasPair p q (a ++ s) = true := by
  induction a with
  | nil => simpa using h
  | cons x a' ih => exact hasPair_cons_tail ih

/-- A pair survives appending. -/
lemma hasPair_append_left {p q : Char → Bool} {s : List Char} (b : List Char)
    (h : hasPair p q s = true) : hasPair p q (s ++ b) = true := by
  induction s with
  | nil => simp [hasPair] at h
  | cons x s' ih =>
    rcases s' with _ | ⟨y, s''⟩
    · simp [hasPair] at h
    · simp only [hasPair] at h
      rcases Bool.or_eq_true_iff.mp h with hp | hp
      · show hasPair p q (x :: y :: (s'' ++ b)) = true
        simp [hasPair, hp]
      · exact hasPair_cons_tail (ih hp)

/-- A pair in an infix is a pair in the whole list. -/
lemma hasPair_mono_within {p q : Char → Bool} {s t : List Char}
    (hst : s <:+: t) (h : hasPair p q s = true) : hasPair p q t = true := by
  obtain ⟨a, b, rfl⟩ := hst
  rw [List.append_assoc]
  exact hasPair_append_right a (hasPair_append_left b h)

/-- Pair absence restricts to every infix. -/
lemma hasPair_false_of_within {p q : Char → Bool} {s t : List Char}
    (hst : s <:+: t) (h : hasPair p q t = false) : hasPair p q s = false := by
  cases hs : hasPair p q s
  · rfl
  · exact absurd (hasPair_mono_within hst hs) (by simp [h])

/-! ### Matcher success forces an adjacent pair -/

/-- Full elimination form of a `matchTwo` success. -/
lemma matchTwo_some_elim {p1 p2 : Char → Bool} {l rest : List Char}
    (h : matchTwo p1 p2 l = some rest) :
    ∃ c1 c2 t2, l.dropWhile isSpc = c1 :: c2 :: t2 ∧ p1 c1 = true ∧
      p2 c2 = true ∧ rest = t2.dropWhile isSpc := by
  unfold matchTwo at h
  rcases hd : l.dropWhile isSpc with _ | ⟨c1, tl⟩ <;> rw [hd] at h
  · simp at h
  · rcases tl with _ | ⟨c2, r2⟩ <;> dsimp only at h
    · simp at h
    · split at h
      case isFalse => simp at h
      case isTrue hp =>
        obtain ⟨hp1, hp2⟩ : p1 c1 = true ∧ p2 c2 = true := by simpa using hp
        exact ⟨c1, c2, r2, rfl, hp1, hp2, (Option.some.inj h).symm⟩

/-- A `matchTwo` success exhibits a `(p1, p2)` adjacency. -/
lemma matchTwo_some_pair {p1 p2 : Char → Bool} {l rest : List Char}
    (h : matchTwo p1 p2 l = some rest) : hasPair p1 p2 l = true := by
  obtain ⟨c1, c2, t2, hd, h1, h2, _⟩ := matchTwo_some_elim h
  have hsfx : c1 :: c2 :: t2 <:+ l := hd ▸ List.dropWhile_suffix isSpc
  apply hasPair_mono_within hsfx.isInfix
  simp [hasPair, h1, h2]

/-- The remainder of a `matchTwo` success is a suffix of the input. -/
lemma matchTwo_some_suffix {p1 p2 : Char → Bool} {l rest : List Char}
    (h : matchTwo p1 p2 l = some rest) : rest <:+ l := by
  obtain ⟨c1, c2, t2, hd, _, _, hr⟩ := matchTwo_some_elim h
  have h1 : rest <:+ t2 := hr ▸ List.dropWhile_suffix isSpc
  have h2 : t2 <:+ c1 :: c2 :: t2 := ⟨[c1, c2], rfl⟩
  have h3 : c1 :: c2 :: t2 <:+ l := hd ▸ List.dropWhile_suffix isSpc
  exact (h1.trans h2).trans h3

/-- An `FHD` match exhibits a case-insensitive `HD` adjacency. -/
lemma matchFHD_some_pair {l rest : List Char}
    (h : matchFHD l = some rest) : hasPair isH isD l = true := by
  unfold matchFHD at h
  rcases hd : l.dropWhile isSpc with _ | ⟨c1, tl⟩ <;> rw [hd] at h
  · simp at h
  · rcases tl with _ | ⟨c2, tl2⟩
    · simp at h
    · rcases tl2 with _ | ⟨c3, r2⟩
      · simp at h
      · dsimp only at h
        split at h
        case isFalse => simp at h
        case isTrue hp =>
          obtain ⟨⟨_, h2⟩, h3⟩ :
              (isF c1 = true ∧ isH c2 = true) ∧ isD c3 = true := by simpa using hp
          have hsfx : c1 :: c2 :: c3 :: r2 <:+ l := hd ▸ List.dropWhile_suffix isSpc
          apply hasPair_mono_within hsfx.isInfix
          simp [hasPair, h2, h3]

/-- The remainder of an `FHD` match is a suffix of the input. -/
lemma matchFHD_some_suffix {l rest : List Char}
    (h : matchFHD l = some rest) : rest <:+ l := by
  unfold matchFHD at h
  rcases hd : l.dropWhile isSpc with _ | ⟨c1, tl⟩ <;> rw [hd] at h
  · simp at h
  · rcases tl with _ | ⟨c2, tl2⟩
    · simp at h
    · rcases tl2 with _ | ⟨c3, r2⟩
      · simp at h
      · dsimp only at h
        split at h
        case isFalse => simp at h
        case isTrue =>
          have hr : rest = r2.dropWhile isSpc := (Option.some.inj h).symm
          have h1 : rest <:+ r2 := hr ▸ List.dropWhile_suffix isSpc
          have h2 : r2 <:+ c1 :: c2 :: c3 :: r2 := ⟨[c1, c2, c3], rfl⟩
          have h3 : c1 :: c2 :: c3 :: r2 <:+ l := hd ▸ List.dropWhile_suffix isSpc
          exact (h1.trans h2).trans h3

/-! ### Scanner identity and pair-absence preservation -/

/-- A scanner whose matcher never fires anywhere is the identity, at
any fuel. -/
lemma scanSub_id {m : List Char → Option (List Char)} :
    ∀ (fuel : Nat) (l : List Char),
      (∀ t, t <:+ l → m t = none) → scanSub m fuel l = l := by
  intro fuel
  induction fuel with
  | zero => intro l _; rfl
  | succ fuel ih =>
    intro l hnone
    rcases l with _ | ⟨a, cs⟩
    · rfl
    · have hm : m (a :: cs) = none := hnone _ ⟨[], rfl⟩
      simp only [scanSub, hm]
      have : scanSub m fuel cs = cs :=
        ih cs fun t ht => hnone t (ht.trans ⟨[a], rfl⟩)
      rw [this]

/-- `matchTwo` cannot fire on a list without a `(p1, p2)` adjacency. -/
lemma matchTwo_none_of_no_pair {p1 p2 : Char → Bool} {t : List Char}
    (h : hasPair p1 p2 t = false) : matchTwo p1 p2 t = none := by
  cases hm : matchTwo p1 p2 t
  · rfl
  · exact absurd (matchTwo_some_pair hm) (by simp [h])

/-- `matchFHD` cannot fire on a list without an `HD` adjacency. -/
lemma matchFHD_none_of_no_pair {t : List Char}
    (h : hasPair isH isD t = false) : matchFHD t = none := by
  cases hm : matchFHD t
  · rfl
  · exact absurd (matchFHD_some_pair hm) (by simp [h])

/-- A substitution whose replacement space satisfies neither side of
the pair predicates preserves pair absence. -/
lemma scanSub_no_pair_preserve {m : List Char → Option (List Char)}
    {p q : Char → Bool}
    (hm : ∀ l rest, m l = some rest → rest <:+ l)
    (hp : p ' ' = false) (hq : q ' ' = false) :
    ∀ (fuel : Nat) (l : List Char),
      hasPair p q l = false → hasPair p q (scanSub m fuel l) = false := by
  intro fuel
  induction fuel with
  | zero => intro l h; exact h
  | succ fuel ih =>
    intro l h
    rcases l with _ | ⟨a, cs⟩
    · rfl
    · rcases hmatch : m (a :: cs) with _ | rest <;> simp only [scanSub, hmatch]
      · apply hasPair_cons_of
        · intro b hb
          rcases scanSub_head fuel cs (m := m) with hh | hh
          · have hcs : cs.head? = some b := hh.symm.trans hb
            rcases cs with _ | ⟨b', cs'⟩
            · simp at hcs
            · have hbb : b' = b := by simpa using hcs
              have h' : hasPair p q (a :: b' :: cs') = false := h
              simp only [hasPair, Bool.or_eq_false_iff] at h'
              rw [← hbb]
              exact h'.1
          · have hb' : b = ' ' := by
              have := hh.symm.trans hb
              simpa using this.symm
            subst hb'
            simp [hq]
        · exact ih cs (hasPair_tail h)
      · apply hasPair_cons_of
        · intro b _
          simp [hp]
        · exact ih rest (hasPair_false_of_within (hm _ _ hmatch).isInfix h)

/-! ### Canonical whitespace form of collapsed and stripped strings -/

/-- The head of a `dropWhile` result fails the predicate. -/
lemma dropWhile_head_not {p : Char → Bool} {l : List Char} {b : Char}
    (h : (l.dropWhile p).head? = some b) : p b = false := by
  have hh := List.head?_dropWhile_not p l
  rw [h] at hh
  exact hh

/-- `dropWhile` is the identity when the head already fails the
predicate. -/
lemma dropWhile_eq_self_of_head {p : Char → Bool} {l : List Char}
    (h : ∀ b, l.head? = some b → p b = false) : l.dropWhile p = l := by
  rcases l with _ | ⟨a, t⟩
  · rfl
  · rw [List.dropWhile_cons_of_neg (by simp [h a rfl])]

/-- The head of a collapsed nonempty list whose head is not whitespace
is that head. -/
lemma collapseWs_head_eq {fuel : Nat} {a : Char} {cs : List Char}
    (h : isSpc a = false) :
    (collapseWs fuel (a :: cs)).head? = some a := by
  rcases fuel with _ | fuel
  · rfl
  · simp only [collapseWs, h, Bool.false_eq_true, if_false]
    rfl

/-- Collapsing preserves absence of pairs whose predicates reject the
replacement space. -/
lemma collapseWs_no_pair_preserve {p q : Char → Bool}
    (hp : p ' ' = false) (hq : q ' ' = false) :
    ∀ (fuel : Nat) (l : List Char),
      hasPair p q l = false → hasPair p q (collapseWs fuel l) = false := by
  intro fuel
  induction fuel with
  | zero => intro l h; exact h
  | succ fuel ih =>
    intro l h
    rcases l with _ | ⟨a, cs⟩
    · rfl
    · rcases hsp : isSpc a with _ | _ <;>
        simp only [collapseWs, hsp, Bool.false_eq_true, if_false, if_true]
      · apply hasPair_cons_of
        · intro b hb
          rcases fuel with _ | fuel
          · have hcs : cs.head? = some b := hb
            rcases cs with _ | ⟨b', cs'⟩
            · simp at hcs
            · have hbb : b' = b := by simpa using hcs
              have h' : hasPair p q (a :: b' :: cs') = false := h
              simp only [hasPair, Bool.or_eq_false_iff] at h'
              rw [← hbb]
              exact h'.1
          · rcases cs with _ | ⟨b', cs'⟩
            · simp [collapseWs] at hb
            · rcases hsb : isSpc b' with _ | _ <;>
                simp only [collapseWs, hsb, Bool.false_eq_true, if_false,
                  if_true] at hb
              · have hbb : b' = b := by simpa using hb
                have h' : hasPair p q (a :: b' :: cs') = false := h
                simp only [hasPair, Bool.or_eq_false_iff] at h'
                rw [← hbb]
                exact h'.1
              · have hbb : b = ' ' := by simpa using hb.symm
                subst hbb
                simp [hq]
        · exact ih cs (hasPair_tail h)
      · apply hasPair_cons_of
        · intro b _
          simp [hp]
        · apply ih
          exact hasPair_false_of_within
            ((List.dropWhile_suffix isSpc).trans ⟨[a], rfl⟩).isInfix h

/-- Every whitespace character of a collapsed list is the plain space,
at sufficient fuel. -/
lemma collapseWs_ws_space :
    ∀ (fuel : Nat) (l : List Char), l.length ≤ fuel →
      ∀ c ∈ collapseWs fuel l, isSpc c = true → c = ' ' := by
  intro fuel
  induction fuel with
  | zero =>
    intro l hl c hc _
    have : l = [] := List.length_eq_zero.mp (Nat.le_zero.mp hl)
    subst this
    simp [collapseWs] at hc
  | succ fuel ih =>
    intro l hl c hc hcsp
    rcases l with _ | ⟨a, cs⟩
    · simp [collapseWs] at hc
    · have hlen : cs.length ≤ fuel := by
        simp only [List.length_cons] at hl
        omega
      rcases hsp : isSpc a with _ | _ <;>
        simp only [collapseWs, hsp, Bool.false_eq_true, if_false, if_true] at hc
      · rcases List.mem_cons.mp hc with rfl | hc'
        · exact absurd hsp (by simp [hcsp])
        · exact ih cs hlen c hc' hcsp
      · rcases List.mem_cons.mp hc with rfl | hc'
        · rfl
        · have hdl : (cs.dropWhile isSpc).length ≤ fuel :=
            le_trans ((List.dropWhile_sublist isSpc).length_le) hlen
          exact ih _ hdl c hc' hcsp

/-- A collapsed list holds no two adjacent whitespace characters, at
sufficient fuel. -/
lemma collapseWs_no_ws_pair :
    ∀ (fuel : Nat) (l : List Char), l.length ≤ fuel →
      hasPair isSpc isSpc (collapseWs fuel l) = false := by
  intro fuel
  induction fuel with
  | zero =>
    intro l hl
    have : l = [] := List.length_eq_zero.mp (Nat.le_zero.mp hl)
    subst this
    rfl
  | succ fuel ih =>
    intro l hl
    rcases l with _ | ⟨a, cs⟩
    · rfl
    · have hlen : cs.length ≤ fuel := by
        simp only [List.length_cons] at hl
        omega
      rcases hsp : isSpc a with _ | _ <;>
        simp only [collapseWs, hsp, Bool.false_eq_true, if_false, if_true]
      · apply hasPair_cons_of
        · intro b _
          simp [hsp]
        · exact ih cs hlen
      · apply hasPair_cons_of
        · intro b hb
          rcases hdrop : cs.dropWhile isSpc with _ | ⟨d, ds⟩
          · rw [hdrop] at hb
            rcases fuel with _ | fuel <;> simp [collapseWs] at hb
          · have hdns : isSpc d = false :=
              dropWhile_head_not (by rw [hdrop]; rfl)
            have hhd : (collapseWs fuel (cs.dropWhile isSpc)).head? = some d := by
              rw [hdrop]
              exact collapseWs_head_eq hdns
            have hbd : d = b := by
              have := hhd.symm.trans hb
              simpa using this
            subst hbd
            simp [hdns]
        · have hdl : (cs.dropWhile isSpc).length ≤ fuel :=
            le_trans ((List.dropWhile_sublist isSpc).length_le) hlen
          exact ih _ hdl

/-- Collapsing is the identity on lists already in canonical form. -/
lemma collapseWs_id :
    ∀ (fuel : Nat) (l : List Char),
      (∀ c ∈ l, isSpc c = true → c = ' ') →
      hasPair isSpc isSpc l = false →
      collapseWs fuel l = l := by
  intro fuel
  induction fuel with
  | zero => intro l _ _; rfl
  | succ fuel ih =>
    intro l hws hnd
    rcases l with _ | ⟨a, cs⟩
    · rfl
    · rcases hsp : isSpc a with _ | _ <;>
        simp only [collapseWs, hsp, Bool.false_eq_true, if_false, if_true]
      · rw [ih cs (fun c hc => hws c (List.mem_cons_of_mem a hc)) (hasPair_tail hnd)]
      · have ha : a = ' ' := hws a (List.mem_cons_self _ _) hsp
        have hdrop : cs.dropWhile isSpc = cs := by
          rcases cs with _ | ⟨b, cs'⟩
          · rfl
          · have hb : isSpc b = false := by
              have h' : hasPair isSpc isSpc (a :: b :: cs') = false := hnd
              simp only [hasPair, Bool.or_eq_false_iff] at h'
              have := h'.1
              rw [hsp] at this
              simpa using this
            exact List.dropWhile_cons_of_neg (by simp [hb])
        rw [hdrop,
          ih cs (fun c hc => hws c (List.mem_cons_of_mem a hc)) (hasPair_tail hnd),
          ha]

/-- Stripping yields an infix of the input. -/
lemma stripL_within (l : List Char) : stripL l <:+: l := by
  have h1 : l.dropWhile isSpc <:+ l := List.dropWhile_suffix isSpc
  have h2 : (l.dropWhile isSpc).reverse.dropWhile isSpc <:+
      (l.dropWhile isSpc).reverse := List.dropWhile_suffix isSpc
  have h3 : stripL l <+: l.dropWhile isSpc := by
    have := List.reverse_prefix.mpr h2
    rwa [List.reverse_reverse] at this
  exact h3.isInfix.trans h1.isInfix

/-- The reverse of a stripped list, unfolded. -/
lemma stripL_reverse (l : List Char) :
    (stripL l).reverse = (l.dropWhile isSpc).reverse.dropWhile isSpc := by
  simp [stripL]

/-- The head of a nonempty stripped list is not whitespace. -/
lemma stripL_head_not_ws {l : List Char} {a : Char}
    (h : (stripL l).head? = some a) : isSpc a = false := by
  have hh : ((l.dropWhile isSpc).reverse.dropWhile isSpc).getLast? = some a := by
    have : (stripL l).head? =
        ((l.dropWhile isSpc).reverse.dropWhile isSpc).reverse.head? := rfl
    rw [this, List.head?_reverse] at h
    exact h
  obtain ⟨u, hu⟩ : (l.dropWhile isSpc).reverse.dropWhile isSpc <:+
      (l.dropWhile isSpc).reverse := List.dropWhile_suffix isSpc
  have hrev : (l.dropWhile isSpc).reverse.getLast? = some a := by
    rw [← hu, List.getLast?_append, hh]
    rfl
  rw [List.getLast?_reverse] at hrev
  exact dropWhile_head_not hrev

/-- The last character of a nonempty stripped list is not whitespace. -/
lemma stripL_last_not_ws {l : List Char} {a : Char}
    (h : (stripL l).reverse.head? = some a) : isSpc a = false := by
  rw [stripL_reverse] at h
  exact dropWhile_head_not h

/-- Stripping is the identity when both ends are not whitespace. -/
lemma stripL_id {l : List Char}
    (hhead : ∀ b, l.head? = some b → isSpc b = false)
    (hlast : ∀ b, l.reverse.head? = some b → isSpc b = false) :
    stripL l = l := by
  unfold stripL
  rw [dropWhile_eq_self_of_head hhead, dropWhile_eq_self_of_head hlast]
  exact List.reverse_reverse l

/-! ### The leading group of a canonical words string is everything -/

/-- A nonempty prefix shares its head with the larger list. -/
lemma prefix_head_eq {s t : List Char} (h : s <+: t) (hne : s ≠ []) :
    s.head? = t.head? := by
  obtain ⟨u, rfl⟩ := h
  rcases s with _ | ⟨a, s'⟩
  · exact absurd rfl hne
  · rfl

/-- A nonempty suffix shares its last character with the larger list. -/
lemma suffix_reverse_head_eq {s t : List Char} (h : s <:+ t) (hne : s ≠ []) :
    s.reverse.head? = t.reverse.head? :=
  prefix_head_eq h.reverse (by simpa using hne)

/-- The matched star tail is a prefix of its input. -/
lemma leadMore_front : ∀ (fuel : Nat) (t : List Char), leadMore fuel t <+: t := by
  intro fuel
  induction fuel with
  | zero => intro t; exact List.nil_prefix
  | succ fuel ih =>
    intro t
    simp only [leadMore]
    split
    · exact List.nil_prefix
    · obtain ⟨u, hu⟩ := ih ((t.dropWhile isSpc).dropWhile isAlphaChar)
      refine ⟨u, ?_⟩
      have h1 := List.takeWhile_append_dropWhile (p := isAlphaChar)
        (l := t.dropWhile isSpc)
      have h2 := List.takeWhile_append_dropWhile (p := isSpc) (l := t)
      have hassoc :
          ((t.takeWhile isSpc ++ (t.dropWhile isSpc).takeWhile isAlphaChar) ++
              leadMore fuel ((t.dropWhile isSpc).dropWhile isAlphaChar)) ++ u =
            t.takeWhile isSpc ++ ((t.dropWhile isSpc).takeWhile isAlphaChar ++
              (leadMore fuel ((t.dropWhile isSpc).dropWhile isAlphaChar) ++ u)) := by
        simp [List.append_assoc]
      rw [hassoc, hu, h1, h2]

/-- Every character of the matched star tail is a letter or
whitespace. -/
lemma leadMore_chars :
    ∀ (fuel : Nat) (t : List Char), ∀ c ∈ leadMore fuel t,
      isAlphaChar c = true ∨ isSpc c = true := by
  intro fuel
  induction fuel with
  | zero => intro t c hc; simp [leadMore] at hc
  | succ fuel ih =>
    intro t c hc
    simp only [leadMore] at hc
    split at hc
    · simp at hc
    · rcases List.mem_append.mp hc with hc | hc
      · rcases List.mem_append.mp hc with hc | hc
        · exact Or.inr (List.mem_takeWhile_imp hc)
        · exact Or.inl (List.mem_takeWhile_imp hc)
      · exact ih _ c hc

/-- Elimination form of a successful leading-group match. -/
lemma leadGroupL_some_elim {l g : List Char} (h : leadGroupL l = some g) :
    g = l.takeWhile isAlphaChar ++
        leadMore (l.length + 1) (l.dropWhile isAlphaChar) ∧
      l.takeWhile isAlphaChar ≠ [] := by
  unfold leadGroupL at h
  split at h
  · simp at h
  · refine ⟨(Option.some.inj h).symm, ?_⟩
    rename_i hcond
    simpa [List.isEmpty_iff] using hcond

/-- The matched group is a prefix of the input. -/
lemma leadGroupL_front {l g : List Char} (h : leadGroupL l = some g) :
    g <+: l := by
  obtain ⟨hg, _⟩ := leadGroupL_some_elim h
  subst hg
  obtain ⟨u, hu⟩ := leadMore_front (l.length + 1) (l.dropWhile isAlphaChar)
  refine ⟨u, ?_⟩
  rw [List.append_assoc, hu, List.takeWhile_append_dropWhile]

/-- Every character of the matched group is a letter or whitespace. -/
lemma leadGroupL_chars {l g : List Char} (h : leadGroupL l = some g) :
    ∀ c ∈ g, isAlphaChar c = true ∨ isSpc c = true := by
  obtain ⟨hg, _⟩ := leadGroupL_some_elim h
  subst hg
  intro c hc
  rcases List.mem_append.mp hc with hc | hc
  · exact Or.inl (List.mem_takeWhile_imp hc)
  · exact leadMore_chars _ _ c hc

/-- The matched group starts with a letter. -/
lemma leadGroupL_head {l g : List Char} (h : leadGroupL l = some g) :
    ∃ a t, g = a :: t ∧ isAlphaChar a = true := by
  obtain ⟨hg, hne⟩ := leadGroupL_some_elim h
  rcases htw : l.takeWhile isAlphaChar with _ | ⟨a, tw⟩
  · exact absurd htw hne
  · refine ⟨a, tw ++ leadMore (l.length + 1) (l.dropWhile isAlphaChar), ?_, ?_⟩
    · rw [hg, htw]
      rfl
    · have hmem : a ∈ l.takeWhile isAlphaChar := by
        rw [htw]
        exact List.mem_cons_self a tw
      exact List.mem_takeWhile_imp hmem

/-- On a canonical words string — letters and single spaces, ending in
a letter — the anchored group matches the whole string. -/
lemma lead_words_complete :
    ∀ (fuel : Nat) (t : List Char), t.length ≤ fuel →
      (∀ c ∈ t, isAlphaChar c = true ∨ c = ' ') →
      hasPair isSpc isSpc t = false →
      (∀ b, t.reverse.head? = some b → isAlphaChar b = true) →
      t.takeWhile isAlphaChar ++ leadMore fuel (t.dropWhile isAlphaChar) = t := by
  intro fuel
  induction fuel with
  | zero =>
    intro t hl _ _ _
    have : t = [] := List.length_eq_zero.mp (Nat.le_zero.mp hl)
    subst this
    rfl
  | succ fuel ih =>
    intro t hl hchars hpair hlast
    rcases hb : t.dropWhile isAlphaChar with _ | ⟨c, b'⟩
    · have hlm : leadMore (fuel + 1) ([] : List Char) = [] := rfl
      rw [hlm, List.append_nil]
      have hsplit := List.takeWhile_append_dropWhile (p := isAlphaChar) (l := t)
      rw [hb, List.append_nil] at hsplit
      exact hsplit
    · have hsfx_cd : (c :: b') <:+ t := by
        rw [← hb]
        exact List.dropWhile_suffix _
      have hcmem : c ∈ t := hsfx_cd.subset (List.mem_cons_self _ _)
      have hcna : isAlphaChar c = false := dropWhile_head_not (by rw [hb]; rfl)
      have hcsp : c = ' ' := by
        rcases hchars c hcmem with h' | h'
        · exact absurd h' (by simp [hcna])
        · exact h'
      rcases b' with _ | ⟨d, b''⟩
      · exfalso
        have ht : t = t.takeWhile isAlphaChar ++ [c] := by
          conv_lhs => rw [← List.takeWhile_append_dropWhile
            (p := isAlphaChar) (l := t), hb]
        have hrev : t.reverse.head? = some c := by
          rw [ht, List.reverse_append]
          rfl
        have halpha := hlast c hrev
        rw [hcsp] at halpha
        exact absurd halpha (by decide)
      · have hsfx_t2 : (d :: b'') <:+ t :=
          List.IsSuffix.trans ⟨[c], rfl⟩ hsfx_cd
        have hdmem : d ∈ t := hsfx_t2.subset (List.mem_cons_self _ _)
        have hdns : isSpc d = false := by
          cases hdsp : isSpc d
          · rfl
          · exfalso
            have hpair_cd : hasPair isSpc isSpc (c :: d :: b'') = true := by
              rw [hcsp]
              simp [hasPair, hdsp, show isSpc ' ' = true from rfl]
            have := hasPair_mono_within hsfx_cd.isInfix hpair_cd
            exact absurd this (by simp [hpair])
        have hdalpha : isAlphaChar d = true := by
          rcases hchars d hdmem with h' | h'
          · exact h'
          · exfalso
            rw [h'] at hdns
            exact absurd hdns (by decide)
        have hws : (c :: d :: b'').takeWhile isSpc = [c] := by
          rw [List.takeWhile_cons_of_pos (by rw [hcsp]; decide),
            List.takeWhile_cons_of_neg (by simp [hdns])]
        have hrest : (c :: d :: b'').dropWhile isSpc = d :: b'' := by
          rw [List.dropWhile_cons_of_pos (by rw [hcsp]; decide),
            List.dropWhile_cons_of_neg (by simp [hdns])]
        have hlet : (d :: b'').takeWhile isAlphaChar =
            d :: b''.takeWhile isAlphaChar :=
          List.takeWhile_cons_of_pos (by simp [hdalpha])
        have hlen2 : (d :: b'').length ≤ fuel := by
          have h1 : (c :: d :: b'').length ≤ t.length := by
            rw [← hb]
            exact (List.dropWhile_sublist _).length_le
          simp only [List.length_cons] at h1 hl ⊢
          omega
        have hchars2 : ∀ x ∈ (d :: b''), isAlphaChar x = true ∨ x = ' ' :=
          fun x hx => hchars x (hsfx_t2.subset hx)
        have hpair2 : hasPair isSpc isSpc (d :: b'') = false :=
          hasPair_false_of_within hsfx_t2.isInfix hpair
        have hlast2 : ∀ x, (d :: b'').reverse.head? = some x →
            isAlphaChar x = true := by
          intro x hx
          apply hlast x
          rw [← suffix_reverse_head_eq hsfx_t2 (by simp)]
          exact hx
        have hIH := ih (d :: b'') hlen2 hchars2 hpair2 hlast2
        have hlm : leadMore (fuel + 1) (c :: d :: b'') =
            ([c] ++ (d :: b'').takeWhile isAlphaChar) ++
              leadMore fuel ((d :: b'').dropWhile isAlphaChar) := by
          simp only [leadMore, hws, hrest, hlet, List.isEmpty_cons,
            Bool.or_self, Bool.false_eq_true, if_false]
        rw [hlm]
        have hassoc : t.takeWhile isAlphaChar ++
            (([c] ++ (d :: b'').takeWhile isAlphaChar) ++
              leadMore fuel ((d :: b'').dropWhile isAlphaChar)) =
            t.takeWhile isAlphaChar ++ ([c] ++
              ((d :: b'').takeWhile isAlphaChar ++
                leadMore fuel ((d :: b'').dropWhile isAlphaChar))) := by
          simp [List.append_assoc]
        rw [hassoc, hIH]
        rw [show ([c] ++ (d :: b'') : List Char) = c :: d :: b'' from rfl, ← hb,
          List.takeWhile_append_dropWhile]

/-! ### Canonical words strings are fixed points of normalization -/

/-- A letter is not whitespace. -/
lemma alpha_not_spc {c : Char} (h : isAlphaChar c = true) : isSpc c = false := by
  cases hsp : isSpc c
  · rfl
  · exfalso
    have hd : c = ' ' ∨ c = '\t' ∨ c = '\n' ∨ c = '\x0d' ∨ c = '\x0b' ∨
        c = '\x0c' := by
      simpa [isSpc, or_assoc] using hsp
    rcases hd with rfl | rfl | rfl | rfl | rfl | rfl <;> exact absurd h (by decide)

/-- A list without any `p1` character holds no `(p1, p2)` pair. -/
lemma hasPair_false_of_no_p1 {p q : Char → Bool} :
    ∀ {l : List Char}, (∀ c ∈ l, p c = false) → hasPair p q l = false := by
  intro l
  induction l with
  | nil => intro _; rfl
  | cons a t ih =>
    intro h
    rcases t with _ | ⟨b, t'⟩
    · rfl
    · simp only [hasPair, Bool.or_eq_false_iff]
      constructor
      · simp [h a (List.mem_cons_self _ _)]
      · exact ih fun c hc => h c (List.mem_cons_of_mem a hc)

/-- The witness of a `head?` equation is a member. -/
lemma mem_of_head? {l : List Char} {b : Char} (h : l.head? = some b) : b ∈ l := by
  rcases l with _ | ⟨a, t⟩
  · simp at h
  · have hab : a = b := by simpa using h
    rw [← hab]
    exact List.mem_cons_self _ _

/-- On a canonical words string the leading-group match returns the
whole string. -/
lemma leadGroupL_words_self {r : List Char}
    (hchars : ∀ c ∈ r, isAlphaChar c = true ∨ c = ' ')
    (hpairws : hasPair isSpc isSpc r = false)
    (hhead : ∀ b, r.head? = some b → isAlphaChar b = true)
    (hlast : ∀ b, r.reverse.head? = some b → isAlphaChar b = true)
    (hne : r ≠ []) :
    leadGroupL r = some r := by
  rcases r with _ | ⟨x, rt⟩
  · exact absurd rfl hne
  · have hx : isAlphaChar x = true := hhead x rfl
    have htw : (x :: rt).takeWhile isAlphaChar = x :: rt.takeWhile isAlphaChar :=
      List.takeWhile_cons_of_pos (by simp [hx])
    unfold leadGroupL
    rw [if_neg (by rw [htw]; simp)]
    exact congrArg some
      (lead_words_complete _ _ (Nat.le_succ _) hchars hpairws hlast)

/-- Normalization fixes every canonical words string: letters and
single interior spaces, letter ends, no case-insensitive `HD` pair. -/
lemma clean_fixed_of_words {r : List Char}
    (hchars : ∀ c ∈ r, isAlphaChar c = true ∨ c = ' ')
    (hpairws : hasPair isSpc isSpc r = false)
    (hhead : ∀ b, r.head? = some b → isAlphaChar b = true)
    (hlast : ∀ b, r.reverse.head? = some b → isAlphaChar b = true)
    (hhd : hasPair isH isD r = false)
    (hne : r ≠ []) :
    cleanChannelName (String.mk r) = String.mk r := by
  have hnotempty : ¬ (String.mk r = "") := by
    intro hcontra
    exact hne (by simpa using congrArg String.data hcontra)
  have hws_all : ∀ c ∈ r, isSpc c = true → c = ' ' := by
    intro c hc hsp
    rcases hchars c hc with h' | h'
    · exact absurd hsp (by simp [alpha_not_spc h'])
    · exact h'
  have hnobar : ∀ t, t <:+ r → ∀ c ∈ t, (c = '|' : Bool) = false := by
    intro t ht c hc
    cases hcb : (c = '|' : Bool)
    · rfl
    · exfalso
      have hcb' : c = '|' := by simpa using hcb
      subst hcb'
      rcases hchars _ (ht.subset hc) with h' | h' <;> exact absurd h' (by decide)
  have hid_markers : subMarkersL r = r := by
    unfold subMarkersL
    apply scanSub_id
    intro t ht
    exact matchTwo_none_of_no_pair (hasPair_false_of_no_p1 (hnobar t ht))
  have hid_collapse : collapseL r = r := collapseWs_id _ _ hws_all hpairws
  have hid_strip : stripL r = r :=
    stripL_id (fun b hb => alpha_not_spc (hhead b hb))
      (fun b hb => alpha_not_spc (hlast b hb))
  by_cases hexc : isExceptionL r = true
  · rw [cleanChannelName, if_neg hnotempty,
      if_pos (show isExceptionL (String.mk r).data = true from hexc)]
    rw [show (String.mk r).data = r from rfl, hid_markers, hid_collapse, hid_strip]
  · rw [cleanChannelName, if_neg hnotempty,
      if_neg (show ¬ isExceptionL (String.mk r).data = true from hexc)]
    have hstd : standardResult r = r := by
      unfold standardResult subTokens
      have h1 : subHDL r = r := by
        unfold subHDL
        apply scanSub_id
        intro t ht
        exact matchTwo_none_of_no_pair (hasPair_false_of_within ht.isInfix hhd)
      have h2 : subFHDL r = r := by
        unfold subFHDL
        apply scanSub_id
        intro t ht
        exact matchFHD_none_of_no_pair (hasPair_false_of_within ht.isInfix hhd)
      have h3 : sub4KL r = r := by
        unfold sub4KL
        apply scanSub_id
        intro t ht
        apply matchTwo_none_of_no_pair
        apply hasPair_false_of_no_p1
        intro c hc
        cases hc4 : is4 c
        · rfl
        · exfalso
          have hc4' : c = '4' := by simpa [is4] using hc4
          subst hc4'
          rcases hchars _ (ht.subset hc) with h' | h' <;>
            exact absurd h' (by decide)
      have h5 : mainNamePick r = r := by
        unfold mainNamePick
        rw [leadGroupL_words_self hchars hpairws hhead hlast hne]
      rw [h1, h2, h3, hid_markers, h5, hid_collapse, hid_strip]
    rw [if_neg (show ¬ standardResult (String.mk r).data = [] from by
      rw [show (String.mk r).data = r from rfl, hstd]; exact hne)]
    rw [show (String.mk r).data = r from rfl, hstd]

/-- The stripped collapse of a leading group is a canonical words
string, and normalization fixes it. -/
lemma clean_fixed_of_group {g : List Char}
    (hgchars : ∀ c ∈ g, isAlphaChar c = true ∨ isSpc c = true)
    (hghd : hasPair isH isD g = false)
    {x : Char} {t0 : List Char} (hgx : g = x :: t0)
    (hxalpha : isAlphaChar x = true) :
    cleanChannelName (String.mk (stripL (collapseL g))) =
      String.mk (stripL (collapseL g)) := by
  have hrchars : ∀ c ∈ stripL (collapseL g), isAlphaChar c = true ∨ c = ' ' := by
    intro c hc
    have hc1 : c ∈ collapseL g := stripL_subset hc
    rcases collapseWs_chars _ _ _ hc1 with h' | h'
    · rcases hgchars c h' with ha | hs'
      · exact Or.inl ha
      · exact Or.inr (collapseWs_ws_space _ _ (Nat.le_succ _) c hc1 hs')
    · exact Or.inr h'
  have hrpairws : hasPair isSpc isSpc (stripL (collapseL g)) = false :=
    hasPair_false_of_within (stripL_within _)
      (collapseWs_no_ws_pair _ _ (Nat.le_succ _))
  have hrhd : hasPair isH isD (stripL (collapseL g)) = false :=
    hasPair_false_of_within (stripL_within _)
      (collapseWs_no_pair_preserve (by decide) (by decide) _ _ hghd)
  have hrhead : ∀ b, (stripL (collapseL g)).head? = some b →
      isAlphaChar b = true := by
    intro b hb
    have hnws : isSpc b = false := stripL_head_not_ws hb
    rcases hrchars b (mem_of_head? hb) with h' | h'
    · exact h'
    · exfalso
      rw [h'] at hnws
      exact absurd hnws (by decide)
  have hrlast : ∀ b, (stripL (collapseL g)).reverse.head? = some b →
      isAlphaChar b = true := by
    intro b hb
    have hnws : isSpc b = false := stripL_last_not_ws hb
    have hmem : b ∈ stripL (collapseL g) :=
      List.mem_reverse.mp (mem_of_head? hb)
    rcases hrchars b hmem with h' | h'
    · exact h'
    · exfalso
      rw [h'] at hnws
      exact absurd hnws (by decide)
  have hrne : stripL (collapseL g) ≠ [] := by
    have hxg : x ∈ g := by rw [hgx]; exact List.mem_cons_self _ _
    have hxns : isSpc x = false := alpha_not_spc hxalpha
    exact stripL_ne_nil_of_mem (collapseWs_preserves _ _ _ hxg hxns) hxns
  exact clean_fixed_of_words hrchars hrpairws hrhead hrlast hrhd hrne

/-- No case-insensitive `HD` pair survives the full token-substitution
pipeline of the standard path. -/
lemma subTokens_no_hd_pair (l : List Char) :
    hasPair isH isD (subTokens l) = false := by
  unfold subTokens subFHDL sub4KL subMarkersL
  apply scanSub_no_pair_preserve
    (fun _ _ hm => matchTwo_some_suffix hm) (by decide) (by decide)
  apply scanSub_no_pair_preserve
    (fun _ _ hm => matchTwo_some_suffix hm) (by decide) (by decide)
  apply scanSub_no_pair_preserve
    (fun _ _ hm => matchFHD_some_suffix hm) (by decide) (by decide)
  exact scanSub_matchHD_no_pair _ _ (Nat.le_succ _)

/-- An exception-path result that still matches the exception list is a
fixed point of normalization. -/
lemma clean_fixed_of_exception_result {x : String}
    (hexc : isExceptionL x.data = true)
    (hexc2 : isExceptionL (cleanChannelName x).data = true) :
    cleanChannelName (cleanChannelName x) = cleanChannelName x := by
  have hx0 : ¬ x = "" := by
    rintro rfl
    exact absurd hexc (by decide)
  have hclean : cleanChannelName x =
      String.mk (stripL (collapseL (subMarkersL x.data))) := by
    rw [cleanChannelName, if_neg hx0, if_pos hexc]
  have hne : ¬ (cleanChannelName x = "") := clean_ne_empty x
  have hpair1 : hasPair (fun c => c = '|') isEHD (subMarkersL x.data) = false :=
    scanSub_matchMarker_no_pair _ _ (Nat.le_succ _)
  have hpair2 : hasPair (fun c => c = '|') isEHD
      (collapseL (subMarkersL x.data)) = false :=
    collapseWs_no_pair_preserve (by decide) (by decide) _ _ hpair1
  have hpair3 : hasPair (fun c => c = '|') isEHD
      (stripL (collapseL (subMarkersL x.data))) = false :=
    hasPair_false_of_within (stripL_within _) hpair2
  have hid_markers : subMarkersL (stripL (collapseL (subMarkersL x.data))) =
      stripL (collapseL (subMarkersL x.data)) := by
    unfold subMarkersL
    apply scanSub_id
    intro t ht
    exact matchTwo_none_of_no_pair (hasPair_false_of_within ht.isInfix hpair3)
  have hws_all : ∀ c ∈ stripL (collapseL (subMarkersL x.data)),
      isSpc c = true → c = ' ' := by
    intro c hc hsp
    exact collapseWs_ws_space _ _ (Nat.le_succ _) c (stripL_subset hc) hsp
  have hpairws : hasPair isSpc isSpc
      (stripL (collapseL (subMarkersL x.data))) = false :=
    hasPair_false_of_within (stripL_within _)
      (collapseWs_no_ws_pair _ _ (Nat.le_succ _))
  have hid_collapse : collapseL (stripL (collapseL (subMarkersL x.data))) =
      stripL (collapseL (subMarkersL x.data)) :=
    collapseWs_id _ _ hws_all hpairws
  have hid_strip : stripL (stripL (collapseL (subMarkersL x.data))) =
      stripL (collapseL (subMarkersL x.data)) :=
    stripL_id (fun _ hb => stripL_head_not_ws hb)
      (fun _ hb => stripL_last_not_ws hb)
  rw [hclean] at hexc2 hne ⊢
  rw [cleanChannelName, if_neg hne, if_pos hexc2]
  rw [show (String.mk (stripL (collapseL (subMarkersL x.data)))).data =
      stripL (collapseL (subMarkersL x.data)) from rfl]
  rw [hid_markers, hid_collapse, hid_strip]

/-! ### The serialization loop on well-formed records -/

/-- On a list of well-formed records the loop succeeds, renders the
four lines of every record in source order, and counts them all,
whatever `original_name` was last assigned. -/
lemma convertGo_map_record :
    ∀ (o : Option String) (rs : List RawRecord),
      convertGo o (rs.map RawValue.record) =
        (true, rs.flatMap entryLines, rs.length) := by
  intro o rs
  induction rs generalizing o with
  | nil => rfl
  | cons r rs ih =>
    simp only [List.map_cons, convertGo, ih, List.flatMap_cons, List.length_cons]

/-- Every record renders exactly four lines. -/
lemma entryLines_length (r : RawRecord) : (entryLines r).length = 4 := rfl

/-- Total length of the rendered entry blocks. -/
lemma flatMap_entryLines_length :
    ∀ rs : List RawRecord, (rs.flatMap entryLines).length = 4 * rs.length := by
  intro rs
  induction rs with
  | nil => rfl
  | cons r rs ih =>
    simp only [List.flatMap_cons, List.length_append, ih, entryLines_length,
      List.length_cons]
    ring

/-! ### The upload exchange, case by case -/

/-- The publish result agrees with its success condition on every
combination of step outcomes. -/
lemma uploadCoreBool_eq_spec :
    ∀ (c1 c2 lg cw st qt : StepOutcome) (nav : Bool),
      uploadCoreBool ⟨c1, c2, lg, cw, st, qt⟩ nav =
        ftpSpecBool ⟨c1, c2, lg, cw, st, qt⟩ nav := by
  decide

/-! ### Claim theorems -/

/-- C1: the single record with id `123`, name `ProSieben HD|E` and
country `Germany` yields a playlist whose one entry shows display name
`ProSieben`, stream URL `https://huhu.to/play/123/index.m3u8`, and a
`group-title` attribute equal to `Germany` in the EXTINF line. -/
theorem c1_roundtrip_prosieben :
    cleanChannelName "ProSieben HD|E" = "ProSieben" ∧
    getChannelUrl "123" "ProSieben HD|E" = "https://huhu.to/play/123/index.m3u8" ∧
    convertJsonToM3u8
        [RawValue.record ⟨some "123", some "ProSieben HD|E", some "Germany"⟩] =
      (true,
       [headerLine, uaLine, refLine,
        "#EXTINF:-1 group-title=\"Germany\" tvg-logo=\"" ++ logoUrl ++
          "\" tvg-name=\"ProSieben\", ProSieben",
        "https://huhu.to/play/123/index.m3u8"],
       1) := by
  exact ⟨rfl, rfl, rfl⟩

/-- C2: URL resolution applies its rules in order on the raw name: a
raw name whose upper-casing holds `BILD TV` resolves to the fixed
dedicated address regardless of id; otherwise a non-empty id resolves
to the templated address holding that exact id; otherwise the
placeholder address results. -/
theorem c2_url_resolution_rules :
    ∀ channelId rawName : String,
      (containsSubL (upperL rawName.data) ("BILD TV".data) = true →
        getChannelUrl channelId rawName = bildUrl) ∧
      (containsSubL (upperL rawName.data) ("BILD TV".data) = false →
        channelId ≠ "" →
        getChannelUrl channelId rawName =
          "https://huhu.to/play/" ++ channelId ++ "/index.m3u8") ∧
      (containsSubL (upperL rawName.data) ("BILD TV".data) = false →
        channelId = "" →
        getChannelUrl channelId rawName = placeholderUrl) := by
  intro channelId rawName
  refine ⟨fun h => ?_, fun h hid => ?_, fun h hid => ?_⟩
  · rw [getChannelUrl, if_pos h]
  · rw [getChannelUrl, if_neg (by simp [h]), if_pos hid]
  · rw [getChannelUrl, if_neg (by simp [h]), if_neg (by simp [hid])]

/-- Witness for C2: the three rules applied at concrete inputs. -/
theorem c2_url_resolution_rules_witness :
    getChannelUrl "" "Neues Bild TV" = bildUrl ∧
    getChannelUrl "123" "ProSieben" = "https://huhu.to/play/123/index.m3u8" ∧
    getChannelUrl "" "ProSieben" = placeholderUrl := by
  refine ⟨(c2_url_resolution_rules "" "Neues Bild TV").1 (by decide), ?_,
    (c2_url_resolution_rules "" "ProSieben").2.2 (by decide) rfl⟩
  exact ((c2_url_resolution_rules "123" "ProSieben").2.1 (by decide)
    (by decide)).trans (by decide)

/-- C3: the claim of per-entry isolation fails when the bad record
comes first.  With a single non-mapping record, `channel.get` raises
before `original_name` is assigned, the `except` handler raises
`NameError` on the unbound `original_name`, the outer handler returns
`False`, and the written file holds only the header; the same bad
record after a well-formed one is skipped as intended. -/
theorem c3_first_bad_record_aborts :
    convertJsonToM3u8 [RawValue.bad] = (false, [headerLine], 0) ∧
    convertJsonToM3u8
        [RawValue.record ⟨some "1", some "ARD", some "Germany"⟩, RawValue.bad] =
      (true, headerLine :: entryLines ⟨some "1", some "ARD", some "Germany"⟩, 1) := by
  exact ⟨rfl, rfl⟩

/-- C4: a playlist of N well-formed records serializes successfully to
exactly `1 + 4 * N` newline-terminated lines: the header first, then one
contiguous four-line block per record in source order. -/
theorem c4_serialization_line_count :
    ∀ rs : List RawRecord,
      convertJsonToM3u8 (rs.map RawValue.record) =
        (true, headerLine :: rs.flatMap entryLines, rs.length) ∧
      (headerLine :: rs.flatMap entryLines).length = 1 + 4 * rs.length := by
  intro rs
  constructor
  · simp [convertJsonToM3u8, convertGo_map_record]
  · rw [List.length_cons, flatMap_entryLines_length]
    omega

/-- C5 counterexample: the token removal is not bounded to whitespace
tokens; the inner letters `HD` of the single word `HDTV` are removed,
so the claim fails on this input. -/
theorem c5_hd_removed_inside_word :
    cleanChannelName "HDTV" = "TV" ∧ cleanChannelName "HDTV" ≠ "HDTV" := by
  exact ⟨rfl, by decide⟩

/-- C5 amended: the token substitutions remove their letter sequences
(case-insensitively, with adjacent whitespace) wherever they occur,
also inside larger words: no `HD` pair survives the `HD` pass, no `4K`
pair survives the `4K` pass — which also rules out surviving `FHD`
occurrences, as every `FHD` holds an `HD` pair — and for example
`XFHDY` normalizes to `XF Y`. -/
theorem c5_hd_substrings_removed_everywhere :
    (∀ l : List Char, hasPair isH isD (subHDL l) = false) ∧
    (∀ l : List Char, hasPair is4 isK (sub4KL l) = false) ∧
    cleanChannelName "XFHDY" = "XF Y" := by
  refine ⟨?_, ?_, rfl⟩
  · intro l
    exact scanSub_matchHD_no_pair (l.length + 1) l (Nat.le_succ _)
  · intro l
    exact scanSub_match4K_no_pair (l.length + 1) l (Nat.le_succ _)

/-- C6: on every name matching the exception list, normalization
applies only the marker substitution, the whitespace collapse and the
strip; every character of the result is a character of the original
name or a replacement space. -/
theorem c6_exception_names_markers_only :
    ∀ name : String, isExceptionL name.data = true →
      cleanChannelName name =
        String.mk (stripL (collapseL (subMarkersL name.data))) ∧
      ∀ c ∈ (cleanChannelName name).data, c ∈ name.data ∨ c = ' ' := by
  intro name h
  have h0 : ¬ name = "" := by
    rintro rfl
    exact absurd h (by decide)
  have hmain : cleanChannelName name =
      String.mk (stripL (collapseL (subMarkersL name.data))) := by
    rw [cleanChannelName, if_neg h0, if_pos h]
  refine ⟨hmain, ?_⟩
  intro c hc
  rw [hmain] at hc
  have hc' : c ∈ stripL (collapseL (subMarkersL name.data)) := hc
  have h1 := stripL_subset hc'
  rcases collapseWs_chars _ _ _ h1 with h2 | h2
  · rcases scanSub_chars
        (fun _ _ hm => (matchMarker_anatomy hm).imp fun _ hp => hp.1) _ _ _ h2 with
      h3 | h3
    · exact Or.inl h3
    · exact Or.inr h3
  · exact Or.inr h2

/-- Witness for C6: the exception name `123 Tv Hd|E` keeps its digits,
its letter case and its `Hd` token, losing only the `|E` marker. -/
theorem c6_exception_names_markers_only_witness :
    isExceptionL ("123 Tv Hd|E".data) = true ∧
    cleanChannelName "123 Tv Hd|E" = "123 Tv Hd" ∧
    cleanChannelName "123 Tv Hd|E" =
      String.mk (stripL (collapseL (subMarkersL ("123 Tv Hd|E".data)))) := by
  exact ⟨by decide, by decide,
    (c6_exception_names_markers_only "123 Tv Hd|E" (by decide)).1⟩

/-- C7 counterexample: normalization is not idempotent.  Cleaning
`HD abc 5` yields `abc 5` (the leading-run match fails on the leading
space left by the `HD` removal), and cleaning again yields `abc`. -/
theorem c7_clean_not_idempotent :
    cleanChannelName (cleanChannelName "HD abc 5") ≠
      cleanChannelName "HD abc 5" := by
  decide

/-- C7 amended: the placeholder is a fixed point of normalization;
every standard-path result on which the leading-run match succeeded is
a fixed point, so a second application changes nothing there; every
exception-path result that still matches the exception list is a fixed
point; and normalization is idempotent at the examined exception-path
results. -/
theorem c7_clean_fixed_points :
    cleanChannelName "Unbekannter Kanal" = "Unbekannter Kanal" ∧
    (∀ (s : String) (g : List Char),
      s ≠ "" → isExceptionL s.data = false →
      leadGroupL (subTokens s.data) = some g →
      cleanChannelName (cleanChannelName s) = cleanChannelName s) ∧
    (∀ x : String, isExceptionL x.data = true →
      isExceptionL (cleanChannelName x).data = true →
      cleanChannelName (cleanChannelName x) = cleanChannelName x) ∧
    cleanChannelName (cleanChannelName "SKY BOX|E") = cleanChannelName "SKY BOX|E" ∧
    cleanChannelName (cleanChannelName "123 Tv Hd|E") =
      cleanChannelName "123 Tv Hd|E" := by
  refine ⟨rfl, ?_, fun x hx hx2 => clean_fixed_of_exception_result hx hx2, rfl, rfl⟩
  intro s g hs hexc hlead
  have hmain : mainNamePick (subTokens s.data) = g := by
    unfold mainNamePick
    rw [hlead]
  have hstd : standardResult s.data = stripL (collapseL g) := by
    unfold standardResult
    rw [hmain]
  have hghd : hasPair isH isD g = false :=
    hasPair_false_of_within (leadGroupL_front hlead).isInfix
      (subTokens_no_hd_pair s.data)
  obtain ⟨x, t0, hgx, hxalpha⟩ := leadGroupL_head hlead
  have hfix := clean_fixed_of_group (leadGroupL_chars hlead) hghd hgx hxalpha
  have hrne : stripL (collapseL g) ≠ [] := by
    have hxg : x ∈ g := by rw [hgx]; exact List.mem_cons_self _ _
    have hxns : isSpc x = false := alpha_not_spc hxalpha
    exact stripL_ne_nil_of_mem (collapseWs_preserves _ _ _ hxg hxns) hxns
  have hclean : cleanChannelName s = String.mk (stripL (collapseL g)) := by
    rw [cleanChannelName, if_neg hs, if_neg (by simp [hexc]),
      if_neg (show ¬ standardResult s.data = [] from by rw [hstd]; exact hrne),
      hstd]
  rw [hclean, hfix]

/-- Witness for C7 amended: the hypotheses of the universal fixed-point
statement hold at `RTL Zwei 2|E`, whose cleanup takes the standard path
with a successful leading-run match, and a second cleanup fixes the
result. -/
theorem c7_clean_fixed_points_witness :
    cleanChannelName "RTL Zwei 2|E" = "RTL Zwei" ∧
    cleanChannelName (cleanChannelName "RTL Zwei 2|E") =
      cleanChannelName "RTL Zwei 2|E" ∧
    cleanChannelName (cleanChannelName "Sky Box 5|D") =
      cleanChannelName "Sky Box 5|D" := by
  refine ⟨by decide, ?_, ?_⟩
  · exact c7_clean_fixed_points.2.1 "RTL Zwei 2|E" ("RTL Zwei".data)
      (by decide) (by decide) (by decide)
  · exact c7_clean_fixed_points.2.2.1 "Sky Box 5|D" (by decide) (by decide)

/-- C8 counterexample: a record whose country key is present with the
empty string serializes with an empty `group-title` attribute, against
the claim that no written field is empty. -/
theorem c8_empty_country_gives_empty_group_title :
    countryOf ⟨none, some "", some ""⟩ = "" ∧
    convertJsonToM3u8 [RawValue.record ⟨none, some "", some ""⟩] =
      (true,
       [headerLine, uaLine, refLine,
        "#EXTINF:-1 group-title=\"\" tvg-logo=\"" ++ logoUrl ++
          "\" tvg-name=\"Unbekannter Kanal\", Unbekannter Kanal",
        placeholderUrl],
       1) := by
  exact ⟨rfl, rfl⟩

/-- C8 amended: for every serialized record the display name and the
stream URL are non-empty; the `group-title` is `Unbekannt` exactly when
the country key is missing and otherwise carries the country value
verbatim, which may be the empty string. -/
theorem c8_serialized_fields :
    ∀ r : RawRecord,
      cleanChannelName (origNameOf r) ≠ "" ∧
      getChannelUrl (idOf r) (origNameOf r) ≠ "" ∧
      (r.country = none → countryOf r = "Unbekannt") ∧
      ∀ s, r.country = some s → countryOf r = s := by
  intro r
  refine ⟨clean_ne_empty _, ?_, ?_, ?_⟩
  · rw [getChannelUrl]
    split
    · decide
    · split
      · intro hcontra
        have hlen := congrArg String.length hcontra
        rw [String.length_append, String.length_append] at hlen
        have h1 : ("https://huhu.to/play/" : String).length = 21 := rfl
        have h2 : ("/index.m3u8" : String).length = 11 := rfl
        have h3 : ("" : String).length = 0 := rfl
        omega
      · decide
  · intro h
    simp [countryOf, h]
  · intro s h
    simp [countryOf, h]

/-- Witness for C8 amended: a record with a present country and empty
name gets a non-empty display name and its country verbatim. -/
theorem c8_serialized_fields_witness :
    cleanChannelName (origNameOf ⟨some "123", some "", some "Germany"⟩) ≠ "" ∧
    countryOf ⟨some "123", some "", some "Germany"⟩ = "Germany" := by
  exact ⟨(c8_serialized_fields ⟨some "123", some "", some "Germany"⟩).1,
    (c8_serialized_fields ⟨some "123", some "", some "Germany"⟩).2.2.2 "Germany" rfl⟩

/-- C9 counterexample: two protocol errors after which the publish
component still returns `True`: a permission error on the directory
change (caught locally, upload continues) and a name-resolution error
on the first connect (retried on the scheme-stripped host). -/
theorem c9_cwd_perm_error_still_true :
    uploadToFtp ⟨.ok, .ok, .ok, .permErr, .ok, .ok⟩ "/subdir" = true ∧
    uploadToFtp ⟨.gaiErr, .ok, .ok, .ok, .ok, .ok⟩ "/" = true := by
  exact ⟨rfl, rfl⟩

/-- C9 amended: the publish component is total with a boolean result —
no exception of the exchange propagates — and it returns `True` exactly
when the connect succeeds (directly or on the one name-resolution
retry), the login succeeds, the directory change is skipped, succeeds
or fails with a permission error only, and the transfer and the quit
succeed; every other combination returns `False`. -/
theorem c9_upload_success_characterization :
    ∀ (env : FtpEnv) (remotePath : String),
      uploadToFtp env remotePath = ftpSpecBool env (navNeeded remotePath) := by
  intro env remotePath
  obtain ⟨c1, c2, lg, cw, st, qt⟩ := env
  exact uploadCoreBool_eq_spec c1 c2 lg cw st qt (navNeeded remotePath)

/-- C10: a catalog fetch parsing to the empty array is treated like a
failed load — the success check is false, no playlist lines are
written, the publish step is never attempted, and the failure path is
taken — as for `None` and for truthy non-array values. -/
theorem c10_empty_catalog_is_failure :
    ∀ uploadEnabled : Bool,
      mainPipeline (FetchResult.json (JsonVal.arr [])) uploadEnabled =
          ⟨none, false, false⟩ ∧
      mainPipeline FetchResult.failed uploadEnabled = ⟨none, false, false⟩ ∧
      mainPipeline (FetchResult.json (JsonVal.nonArr true)) uploadEnabled =
          ⟨none, false, false⟩ ∧
      channelsLoadedOk (FetchResult.json (JsonVal.arr [])) = false := by
  intro uploadEnabled
  exact ⟨rfl, rfl, rfl, rfl⟩

end VavooIptv
